import Mathlib

/-!
Shallow embedding of the read-only SQL gateway of an MCP server for
Microsoft SQL Server (sources: `src/database.ts`, `src/tools/query-tools.ts`,
`src/tools/schema-tools.ts`, `src/index.ts`).

SQL text is modelled as `List Char`.  The JavaScript regular-expression
tests used by the gateway are modelled character by character: a regex
`test` is a scan that tries to match at every position of the text, and
the character classes `\s` and `\w` are modelled by `isWs` and
`isWordChar`.  JavaScript `String.prototype.trim`, `toLowerCase`,
`toUpperCase`, `includes` and template-literal concatenation are modelled
by `trimL`, `List.map Char.toLower`, `List.map Char.toUpper`, `containsL`
and `List.append`.  Fallible operations (a `throw` in the source) return
`Option`/`Except`.
-/

namespace MSSqlMcp

/-- The regex character class `\s` (and the whitespace removed by
`String.prototype.trim`), restricted to the ASCII range that the
gateway's SQL text manipulations exercise. -/
def isWs (c : Char) : Bool :=
  c = ' ' || c = '\t' || c = '\n' || c = '\r' || c = '\x0b' || c = '\x0c'

/-- The regex character class `\w`: `[A-Za-z0-9_]`. -/
def isWordChar (c : Char) : Bool :=
  c.isAlpha || c.isDigit || c = '_'

/-- JavaScript `String.prototype.trim`: drop leading and trailing
whitespace. -/
def trimL (l : List Char) : List Char :=
  ((l.dropWhile isWs).reverse.dropWhile isWs).reverse

/-- Test that `pat` is a prefix of `l` (used to model an anchored regex
literal). -/
def startsWithL : List Char → List Char → Bool
  | [], _ => true
  | _ :: _, [] => false
  | a :: as, b :: bs => a = b && startsWithL as bs

/-- JavaScript `String.prototype.includes`: `pat` occurs as a contiguous
substring. -/
def containsL (pat : List Char) : List Char → Bool
  | [] => startsWithL pat []
  | c :: rest => startsWithL pat (c :: rest) || containsL pat rest

/-- Holds when the position after `prev` is at a `\b` boundary suitable to
start a word: `prev` is the character just before the scan position
(`none` at the start of the text). -/
def noWordBefore : Option Char → Bool
  | none => true
  | some c => !isWordChar c

/-- Holds when the text `l` does not continue a word: it is empty or its
first character is not a word character (the closing `\b`). -/
def noWordAt : List Char → Bool
  | [] => true
  | c :: _ => !isWordChar c

/-- Scan for `/\bw\b/`: try to match the literal word `w` with word
boundaries on both sides at every position of the text, remembering in
`prev` the character before the current position. -/
def wordInAux (w : List Char) : Option Char → List Char → Bool
  | prev, [] => noWordBefore prev && startsWithL w []
  | prev, c :: rest =>
      (noWordBefore prev && startsWithL w (c :: rest)
        && noWordAt ((c :: rest).drop w.length))
      || wordInAux w (some c) rest

/-- The test `/\bw\b/.test l`. -/
def wordIn (w l : List Char) : Bool := wordInAux w none l

/-- The deny list of `validateReadOnlyQuery` in `src/database.ts`:
`/\b(insert|update|delete|drop|truncate|alter|create|exec|execute|sp_executesql)\b/i`
(the text it is tested on is already lowercased). -/
def denyWords : List (List Char) :=
  ["insert".data, "update".data, "delete".data, "drop".data,
   "truncate".data, "alter".data, "create".data, "exec".data,
   "execute".data, "sp_executesql".data]

/-- The first dangerous pattern test of `validateReadOnlyQuery`. -/
def dangerousKeywords (l : List Char) : Bool :=
  denyWords.any (fun w => wordIn w l)

/-- Test that `l` is nonempty and begins with a whitespace character. -/
def headIsWs : List Char → Bool
  | [] => false
  | c :: _ => isWs c

/-- Test that `l` is nonempty and begins with a word character. -/
def headIsWord : List Char → Bool
  | [] => false
  | c :: _ => isWordChar c

/-- After the literal `into`: match `\s+\w+` (at least one whitespace
character, then a word character; the greedy whitespace run must end at a
word character). -/
def matchWsWord (l : List Char) : Bool :=
  match l with
  | [] => false
  | c :: rest => isWs c && headIsWord (rest.dropWhile isWs)

/-- Scan for `/\binto\s+\w+/i` on lowercased text
(the `INSERT INTO` / `SELECT INTO` heuristic). -/
def intoScanAux : Option Char → List Char → Bool
  | _, [] => false
  | prev, c :: rest =>
      (noWordBefore prev && startsWithL "into".data (c :: rest)
        && matchWsWord ((c :: rest).drop 4))
      || intoScanAux (some c) rest

/-- The test `/\binto\s+\w+/i.test l`. -/
def intoScan (l : List Char) : Bool := intoScanAux none l

/-- Test that `l` is nonempty and begins with `=`. -/
def headIsEq : List Char → Bool
  | [] => false
  | c :: _ => c = '='

/-- After the literal `set`: match `\s+\w+\s*=`. -/
def matchSetTail (l : List Char) : Bool :=
  match l with
  | [] => false
  | c :: rest =>
      isWs c &&
        (let afterWs := rest.dropWhile isWs
         headIsWord afterWs &&
           headIsEq ((afterWs.dropWhile isWordChar).dropWhile isWs))

/-- Scan for `/\bset\s+\w+\s*=/i` on lowercased text
(the `UPDATE ... SET` heuristic). -/
def setEqScanAux : Option Char → List Char → Bool
  | _, [] => false
  | prev, c :: rest =>
      (noWordBefore prev && startsWithL "set".data (c :: rest)
        && matchSetTail ((c :: rest).drop 3))
      || setEqScanAux (some c) rest

/-- The test `/\bset\s+\w+\s*=/i.test l`. -/
def setEqScan (l : List Char) : Bool := setEqScanAux none l

/-- After the literal `set` in the allow-list test: match
`\s+(statistics|showplan)`. -/
def matchWsAlt (l : List Char) : Bool :=
  match l with
  | [] => false
  | c :: rest =>
      isWs c &&
        (let afterWs := rest.dropWhile isWs
         startsWithL "statistics".data afterWs || startsWithL "showplan".data afterWs)

/-- The anchored allow-list test of `validateReadOnlyQuery`:
`/^(select|with|explain|set\s+(statistics|showplan))/i` on the
lowercased, trimmed text. -/
def allowedStart (l : List Char) : Bool :=
  startsWithL "select".data l || startsWithL "with".data l
    || startsWithL "explain".data l
    || (startsWithL "set".data l && matchWsAlt (l.drop 3))

/-- Model of `DatabaseManager.validateReadOnlyQuery` (`src/database.ts`):
lowercase and trim the query, throw (here: `false`) if any dangerous
pattern matches, then throw unless the allow-list prefix matches.
Returns `true` exactly when the source function returns without
throwing. -/
def validateReadOnlyQuery (query : List Char) : Bool :=
  let normalizedQuery := trimL (query.map Char.toLower)
  if dangerousKeywords normalizedQuery || intoScan normalizedQuery
      || setEqScan normalizedQuery then
    false
  else
    allowedStart normalizedQuery

/-- Helper for `natChars`: the first argument is structural fuel (the
recursion divides by ten, so any fuel of at least the digit count is
enough; `natChars` passes `n + 1`). -/
def natCharsAux : Nat → Nat → List Char
  | 0, _ => []
  | fuel + 1, n =>
      if n < 10 then [Nat.digitChar n]
      else natCharsAux fuel (n / 10) ++ [Nat.digitChar (n % 10)]

/-- Decimal digits of a natural number, as produced by JavaScript
template-literal interpolation of a nonnegative integer. -/
def natChars (n : Nat) : List Char := natCharsAux (n + 1) n

/-- Try to match `/SELECT\s+/i` at the head of `l`: the literal `select`
case-insensitively, then a nonempty greedy whitespace run.  On success
return the text after the match. -/
def trySelectAt (l : List Char) : Option (List Char) :=
  if startsWithL "select".data (l.map Char.toLower) && headIsWs (l.drop 6) then
    some ((l.drop 6).dropWhile isWs)
  else none

/-- Find the leftmost match of `/SELECT\s+/i` in `l`; return the text
before the match and the text after it (the shape used by
`String.prototype.replace` with a plain replacement string). -/
def findSel : List Char → Option (List Char × List Char)
  | [] => none
  | c :: rest =>
      match trySelectAt (c :: rest) with
      | some post => some ([], post)
      | none =>
          match findSel rest with
          | some (pre, post) => some (c :: pre, post)
          | none => none

/-- Model of `QueryTools.addRowLimit` (`src/tools/query-tools.ts`): if the
trimmed, uppercased query contains `SELECT TOP`, or contains both
`OFFSET` and `FETCH`, return it unchanged; otherwise replace the first
`/SELECT\s+/i` match by `SELECT TOP ${maxRows} `; if there is no match,
return the query unchanged. -/
def addRowLimit (query : List Char) (maxRows : Nat) : List Char :=
  let normalizedQuery := trimL (query.map Char.toUpper)
  if containsL "SELECT TOP".data normalizedQuery then query
  else if containsL "OFFSET".data normalizedQuery
      && containsL "FETCH".data normalizedQuery then query
  else
    match findSel query with
    | some (pre, post) =>
        pre ++ "SELECT TOP ".data ++ natChars maxRows ++ [' '] ++ post
    | none => query

/-- The text `USE [${database}]; ${q}` built by `QueryTools.executeQuery`. -/
def useQuery (database q : List Char) : List Char :=
  "USE [".data ++ database ++ "]; ".data ++ q

/-- Model of `QueryTools.executeQuery` (`src/tools/query-tools.ts`), up to
the SQL
text handed to the driver: validate the query (throw — here `none` — on
rejection), apply the row limit, and prefix the `USE [database]; `
directive.  `some t` is the full text sent to the server. -/
def executeQuery (database query : List Char) (maxRows : Nat) :
    Option (List Char) :=
  if validateReadOnlyQuery query then
    some (useQuery database (addRowLimit query maxRows))
  else none

/-- The left word-boundary condition for an occurrence whose text is
preceded by the context `u` and, before that, by the character `prev`
(if any): the last character before the occurrence is not a word
character, or there is none. -/
def leftOk (prev : Option Char) (u : List Char) : Bool :=
  match u.getLast? with
  | none => noWordBefore prev
  | some c => !isWordChar c

/-- Specification-level predicate "the text contains a write statement":
some deny-list keyword occurs in it as a whole word, in any letter
case. -/
def containsWriteWord (t : List Char) : Bool :=
  denyWords.any (fun w => wordIn w (t.map Char.toLower))

/-! ### The connection pool manager (`src/database.ts`) -/

/-- The fields of `ConnectionConfig` that `DatabaseManager.getConnection`
and `getConnectionKey` consult.  Optional fields are `Option`; a
JavaScript falsy test (`!x`, `x || y`) treats a missing value, an empty
string and the number `0` as absent. -/
structure ConnectionConfig where
  server : List Char
  port : Option Nat
  database : List Char
  authentication : List Char
  username : Option (List Char)
  password : Option (List Char)
deriving DecidableEq

/-- JavaScript falsy test for an optional string. -/
def strFalsy : Option (List Char) → Bool
  | none => true
  | some s => s.isEmpty

/-- The default `config.port || 1433`. -/
def portOrDefault : Option Nat → Nat
  | none => 1433
  | some p => if p = 0 then 1433 else p

/-- The default `config.username || 'integrated'`. -/
def usernameOrIntegrated : Option (List Char) → List Char
  | none => "integrated".data
  | some s => if s.isEmpty then "integrated".data else s

/-- Model of `DatabaseManager.getConnectionKey`:
`${config.server}:${config.port || 1433}:${config.database}:${config.username || 'integrated'}`. -/
def getConnectionKey (config : ConnectionConfig) : List Char :=
  config.server ++ ':' :: natChars (portOrDefault config.port)
    ++ ':' :: config.database ++ ':' :: usernameOrIntegrated config.username

/-- A live pool handle: `id` is the allocation order of the
`new sql.ConnectionPool(config)` object (so that distinct objects
compare different), `connected` models the driver's health flag. -/
structure Pool where
  id : Nat
  connected : Bool
deriving DecidableEq

/-- The mutable state of a `DatabaseManager`: the `pools` map — most
recent binding first, which gives `Map.get`/`Map.set` lookup semantics —
and the allocation counter for pool objects. -/
structure ManagerState where
  pools : List (List Char × Pool)
  nextId : Nat
deriving DecidableEq

def emptyManager : ManagerState := ⟨[], 0⟩

deriving instance DecidableEq for Except

/-- The lookup `this.pools.get(key)`. -/
def lookupPool : List (List Char × Pool) → List Char → Option Pool
  | [], _ => none
  | (k, p) :: rest, key => if k = key then some p else lookupPool rest key

/-- The create-and-connect path of `getConnection`: throw when `sql`
authentication lacks username or password, construct a pool and
`await pool.connect()` — the oracle `connectOk` says whether the network
connect succeeds — and only after a successful connect register the pool
under `key` (`this.pools.set(key, pool)`).  The source performs no
mutation of `this.pools` before that `set`, so the error results carry
the state unchanged. -/
def createAndConnect (config : ConnectionConfig) (connectOk : Bool)
    (key : List Char) (s : ManagerState) :
    Except (List Char) Pool × ManagerState :=
  if config.authentication = "sql".data
      && (strFalsy config.username || strFalsy config.password) then
    (Except.error "SQL authentication requires username and password".data, s)
  else if connectOk then
    (Except.ok ⟨s.nextId, true⟩,
      ⟨(key, (⟨s.nextId, true⟩ : Pool)) :: s.pools, s.nextId + 1⟩)
  else
    (Except.error "connect failed".data, s)

/-- Model of `DatabaseManager.getConnection` (`src/database.ts`): reuse the
registered pool for the profile's key when it reports connected,
otherwise create, connect and register a new pool. -/
def getConnection (config : ConnectionConfig) (connectOk : Bool)
    (s : ManagerState) : Except (List Char) Pool × ManagerState :=
  match lookupPool s.pools (getConnectionKey config) with
  | some pool =>
      if pool.connected then (Except.ok pool, s)
      else createAndConnect config connectOk (getConnectionKey config) s
  | none => createAndConnect config connectOk (getConnectionKey config) s

/-- The pooling identity tuple named by the specification: host, port
defaulting to 1433, database, username-or-"integrated". -/
def poolIdentity (config : ConnectionConfig) :
    List Char × Nat × List Char × List Char :=
  (config.server, portOrDefault config.port, config.database,
    usernameOrIntegrated config.username)

/-- The registry invariant maintained by `getConnection` from the empty
state: registered pool ids are below the allocation counter, and two
bindings with the same pool id carry the same key (each pool object is
registered under one key). -/
def wfState (s : ManagerState) : Prop :=
  (∀ e ∈ s.pools, e.2.id < s.nextId)
    ∧ ∀ e₁ ∈ s.pools, ∀ e₂ ∈ s.pools, e₁.2.id = e₂.2.id → e₁.1 = e₂.1

/-- Server and database names free of the `:` separator that
`getConnectionKey` joins the identity fields with. -/
def colonFree (config : ConnectionConfig) : Prop :=
  ':' ∉ config.server ∧ ':' ∉ config.database

/-- A profile pair whose keys collide although the databases differ:
the `:` inside the username of the first profile and inside the database
of the second make the joined keys equal. -/
def cfgColl1 : ConnectionConfig :=
  ⟨"s".data, none, "x".data, "sql".data, some "u:v".data, some "p".data⟩

def cfgColl2 : ConnectionConfig :=
  ⟨"s".data, none, "x:u".data, "sql".data, some "v".data, some "p".data⟩

/-- The profile of the specification's concurrency scenario. -/
def cfgRace : ConnectionConfig :=
  ⟨"db1".data, none, "Sales".data, "sql".data, some "ro".data, some "pw".data⟩

/-! #### A two-task interleaving model of concurrent `getConnection`

JavaScript `async` functions run synchronously until their first
`await`; `getConnection` suspends exactly once, at `await
pool.connect()`, between the registry check (`this.pools.get`) and the
registry update (`this.pools.set`).  A task is therefore in one of four
phases, and one scheduling step runs one synchronous segment. -/

inductive TaskPhase where
  | ready
  | connecting (key : List Char) (poolId : Nat)
  | failed
  | done (p : Pool)
deriving DecidableEq

/-- One synchronous segment of `getConnection` for `config`:
from `ready`, perform the registry lookup and, when no connected pool is
found, validate the credentials, construct the pool object and start
`await pool.connect()` — counted as one network connection — then
suspend; from `connecting`, perform the post-await suffix
`this.pools.set(key, pool); return pool`. -/
def taskStep (config : ConnectionConfig) :
    TaskPhase → ManagerState → Nat → TaskPhase × ManagerState × Nat
  | .ready, mgr, connects =>
      match lookupPool mgr.pools (getConnectionKey config) with
      | some pool =>
          if pool.connected then (.done pool, mgr, connects)
          else if config.authentication = "sql".data
              && (strFalsy config.username || strFalsy config.password) then
            (.failed, mgr, connects)
          else
            (.connecting (getConnectionKey config) mgr.nextId,
              ⟨mgr.pools, mgr.nextId + 1⟩, connects + 1)
      | none =>
          if config.authentication = "sql".data
              && (strFalsy config.username || strFalsy config.password) then
            (.failed, mgr, connects)
          else
            (.connecting (getConnectionKey config) mgr.nextId,
              ⟨mgr.pools, mgr.nextId + 1⟩, connects + 1)
  | .connecting key pid, mgr, connects =>
      (.done ⟨pid, true⟩, ⟨(key, (⟨pid, true⟩ : Pool)) :: mgr.pools, mgr.nextId⟩,
        connects)
  | .failed, mgr, connects => (.failed, mgr, connects)
  | .done p, mgr, connects => (.done p, mgr, connects)

/-- Two concurrent invocations of `getConnection` for the same profile:
`task0`, `task1`, the shared registry, and the number of network
connections established so far. -/
structure TwoTasks where
  task0 : TaskPhase
  task1 : TaskPhase
  mgr : ManagerState
  connects : Nat
deriving DecidableEq

def schedStep (config : ConnectionConfig) (who : Bool) (st : TwoTasks) :
    TwoTasks :=
  if who then
    let r := taskStep config st.task1 st.mgr st.connects
    ⟨st.task0, r.1, r.2.1, r.2.2⟩
  else
    let r := taskStep config st.task0 st.mgr st.connects
    ⟨r.1, st.task1, r.2.1, r.2.2⟩

/-- Run a schedule (`false` = step task 0, `true` = step task 1). -/
def runSched (config : ConnectionConfig) : List Bool → TwoTasks → TwoTasks
  | [], st => st
  | w :: rest, st => runSched config rest (schedStep config w st)

def initTwoTasks : TwoTasks := ⟨.ready, .ready, emptyManager, 0⟩

/-! ### The schema assembler (`src/tools/schema-tools.ts`) -/

/-- One row of the columns catalog query of `getTableColumns`. -/
structure ColumnInfo where
  name : List Char
  data_type : List Char
  max_length : Int
  precision : Int
  scale : Int
  is_nullable : Bool
  is_identity : Bool
  default_value : Option (List Char)
deriving DecidableEq

/-- One row of the indexes catalog query of `getIndexes`: the key and
included column names arrive as comma-joined strings
(`STUFF(... FOR XML PATH(''))`), `NULL` when there are none. -/
structure IndexRow where
  name : List Char
  type : List Char
  is_unique : Bool
  is_primary_key : Bool
  columns : Option (List Char)
  included_columns : Option (List Char)
  filter_definition : Option (List Char)
deriving DecidableEq

/-- The index record built by `getIndexes` after splitting the
comma-joined column lists. -/
structure IndexInfo where
  name : List Char
  type : List Char
  is_unique : Bool
  is_primary_key : Bool
  columns : List (List Char)
  included_columns : List (List Char)
  filter_definition : Option (List Char)
deriving DecidableEq

/-- One row of the foreign-key catalog queries (`getForeignKeys` and
`getReferencedBy` share this shape). -/
structure ForeignKeyRow where
  name : List Char
  parent_schema : List Char
  parent_table : List Char
  parent_columns : Option (List Char)
  referenced_schema : List Char
  referenced_table : List Char
  referenced_columns : Option (List Char)
  delete_rule : List Char
  update_rule : List Char
deriving DecidableEq

/-- The foreign-key record built after splitting the column lists. -/
structure ForeignKeyInfo where
  name : List Char
  parent_schema : List Char
  parent_table : List Char
  parent_columns : List (List Char)
  referenced_schema : List Char
  referenced_table : List Char
  referenced_columns : List (List Char)
  delete_rule : List Char
  update_rule : List Char
deriving DecidableEq

/-- Helper for `splitOnComma`; `acc` holds the current field reversed. -/
def splitOnCommaAux : List Char → List Char → List (List Char)
  | [], acc => [acc.reverse]
  | c :: rest, acc =>
      if c = ',' then acc.reverse :: splitOnCommaAux rest []
      else splitOnCommaAux rest (c :: acc)

/-- JavaScript `s.split(',')`. -/
def splitOnComma (s : List Char) : List (List Char) := splitOnCommaAux s []

/-- JavaScript `r.columns ? r.columns.split(',') : []`: `NULL` and the
empty string are falsy and give the empty list. -/
def splitCommaJoined : Option (List Char) → List (List Char)
  | none => []
  | some s => if s.isEmpty then [] else splitOnComma s

def mkIndexInfo (r : IndexRow) : IndexInfo :=
  ⟨r.name, r.type, r.is_unique, r.is_primary_key,
    splitCommaJoined r.columns, splitCommaJoined r.included_columns,
    r.filter_definition⟩

def mkForeignKeyInfo (r : ForeignKeyRow) : ForeignKeyInfo :=
  ⟨r.name, r.parent_schema, r.parent_table,
    splitCommaJoined r.parent_columns, r.referenced_schema,
    r.referenced_table, splitCommaJoined r.referenced_columns,
    r.delete_rule, r.update_rule⟩

/-- The catalog as observed through the six sub-queries of
`describeTable`, each scoped by `(database, schema, table)`.  The
primary-key and trigger queries return bare name rows, already projected
as in `recordset.map(r => r.name)`. -/
structure Catalog where
  columnRows : List Char → List Char → List Char → List ColumnInfo
  primaryKeyRows : List Char → List Char → List Char → List (List Char)
  indexRows : List Char → List Char → List Char → List IndexRow
  foreignKeyRows : List Char → List Char → List Char → List ForeignKeyRow
  referencedByRows : List Char → List Char → List Char → List ForeignKeyRow
  triggerRows : List Char → List Char → List Char → List (List Char)

/-- The aggregate returned by `describeTable`. -/
structure TableDescription where
  schema : List Char
  table : List Char
  columns : List ColumnInfo
  primary_keys : List (List Char)
  indexes : List IndexInfo
  foreign_keys : List ForeignKeyInfo
  referenced_by : List ForeignKeyInfo
  triggers : List (List Char)
deriving DecidableEq

/-- Model of `SchemaTools.describeTable`: issue the six catalog sub-queries
in
order and assemble the record.  The source performs no cross-sub-query
consistency check and no emptiness check, and cannot fail once the
sub-queries return: the function is total. -/
def describeTable (cat : Catalog) (database schema table : List Char) :
    TableDescription where
  schema := schema
  table := table
  columns := cat.columnRows database schema table
  primary_keys := cat.primaryKeyRows database schema table
  indexes := (cat.indexRows database schema table).map mkIndexInfo
  foreign_keys := (cat.foreignKeyRows database schema table).map mkForeignKeyInfo
  referenced_by :=
    (cat.referencedByRows database schema table).map mkForeignKeyInfo
  triggers := cat.triggerRows database schema table

/-- A catalog in which the table `dbo.T` has the single column `id` but
whose primary-key sub-query reports the dangling name `ghost`, as after
a concurrent schema change between the two sub-queries. -/
def ghostCatalog : Catalog where
  columnRows := fun _ s t =>
    if s = "dbo".data ∧ t = "T".data then
      [⟨"id".data, "int".data, 4, 10, 0, false, true, none⟩]
    else []
  primaryKeyRows := fun _ s t =>
    if s = "dbo".data ∧ t = "T".data then ["ghost".data] else []
  indexRows := fun _ _ _ => []
  foreignKeyRows := fun _ _ _ => []
  referencedByRows := fun _ _ _ => []
  triggerRows := fun _ _ _ => []

/-- A catalog with no tables: every sub-query returns zero rows. -/
def emptyCatalog : Catalog where
  columnRows := fun _ _ _ => []
  primaryKeyRows := fun _ _ _ => []
  indexRows := fun _ _ _ => []
  foreignKeyRows := fun _ _ _ => []
  referencedByRows := fun _ _ _ => []
  triggerRows := fun _ _ _ => []

/-- A consistent catalog in which `dbo.T` has the column `id` and the
primary key `{id}`. -/
def idCatalog : Catalog where
  columnRows := fun _ s t =>
    if s = "dbo".data ∧ t = "T".data then
      [⟨"id".data, "int".data, 4, 10, 0, false, true, none⟩]
    else []
  primaryKeyRows := fun _ s t =>
    if s = "dbo".data ∧ t = "T".data then ["id".data] else []
  indexRows := fun _ _ _ => []
  foreignKeyRows := fun _ _ _ => []
  referencedByRows := fun _ _ _ => []
  triggerRows := fun _ _ _ => []

/-! ### Specifications of the string scanners -/

theorem startsWithL_iff (p l : List Char) :
    startsWithL p l = true ↔ ∃ t, l = p ++ t := by
  induction p generalizing l with
  | nil => simp [startsWithL]
  | cons a as ih =>
    cases l with
    | nil => simp [startsWithL]
    | cons b bs =>
      simp only [startsWithL, Bool.and_eq_true, decide_eq_true_eq, ih,
        List.cons_append, List.cons.injEq]
      constructor
      · rintro ⟨rfl, t, rfl⟩
        exact ⟨t, rfl, rfl⟩
      · rintro ⟨t, rfl, rfl⟩
        exact ⟨rfl, t, rfl⟩

theorem containsL_iff (p l : List Char) :
    containsL p l = true ↔ ∃ u v, l = u ++ p ++ v := by
  induction l with
  | nil =>
    simp only [containsL, startsWithL_iff]
    constructor
    · rintro ⟨t, ht⟩
      exact ⟨[], t, by simpa using ht⟩
    · rintro ⟨u, v, h⟩
      obtain ⟨hu, hp, hv⟩ : u = [] ∧ p = [] ∧ v = [] := by simpa using h.symm
      exact ⟨v, by simp [hp, hv]⟩
  | cons c rest ih =>
    simp only [containsL, Bool.or_eq_true, startsWithL_iff, ih]
    constructor
    · rintro (⟨t, ht⟩ | ⟨u, v, rfl⟩)
      · exact ⟨[], t, by simpa using ht⟩
      · exact ⟨c :: u, v, rfl⟩
    · rintro ⟨u, v, h⟩
      cases u with
      | nil =>
        left
        exact ⟨v, by simpa using h⟩
      | cons x u' =>
        right
        rw [List.cons_append, List.cons_append] at h
        injection h with h1 h2
        exact ⟨u', v, h2⟩

theorem leftOk_cons (prev : Option Char) (c : Char) (u : List Char) :
    leftOk prev (c :: u) = leftOk (some c) u := by
  cases u with
  | nil => simp [leftOk, noWordBefore]
  | cons a u' =>
    cases hL : (a :: u').getLast? with
    | none => simp at hL
    | some x => simp [leftOk, List.getLast?_cons_cons, hL]

theorem wordInAux_complete (w : List Char) (prev : Option Char) (l : List Char)
    (h : wordInAux w prev l = true) :
    ∃ u v, l = u ++ w ++ v ∧ leftOk prev u = true ∧ noWordAt v = true := by
  induction l generalizing prev with
  | nil =>
    simp only [wordInAux, Bool.and_eq_true] at h
    obtain ⟨h1, h2⟩ := h
    obtain ⟨t, ht⟩ := (startsWithL_iff _ _).1 h2
    obtain ⟨hw, hts⟩ := List.append_eq_nil.1 ht.symm
    subst hw
    exact ⟨[], [], by simp, by simpa [leftOk] using h1, rfl⟩
  | cons c rest ih =>
    simp only [wordInAux, Bool.or_eq_true, Bool.and_eq_true] at h
    rcases h with ⟨⟨h1, h2⟩, h3⟩ | h
    · obtain ⟨t, ht⟩ := (startsWithL_iff _ _).1 h2
      refine ⟨[], t, by simpa using ht, by simpa [leftOk] using h1, ?_⟩
      rw [ht, List.drop_left] at h3
      exact h3
    · obtain ⟨u, v, hl, hLeft, hRight⟩ := ih (some c) h
      exact ⟨c :: u, v, by simp [hl], by rw [leftOk_cons]; exact hLeft, hRight⟩

theorem wordInAux_sound (w : List Char) (prev : Option Char) (u v : List Char)
    (hLeft : leftOk prev u = true) (hRight : noWordAt v = true) :
    wordInAux w prev (u ++ w ++ v) = true := by
  induction u generalizing prev with
  | nil =>
    have h1 : noWordBefore prev = true := by simpa [leftOk] using hLeft
    cases w with
    | nil =>
      cases v with
      | nil => simp [wordInAux, startsWithL, h1]
      | cons a rest => simp [wordInAux, startsWithL, h1, hRight]
    | cons b w' =>
      simp only [List.nil_append, List.cons_append, wordInAux, Bool.or_eq_true,
        Bool.and_eq_true]
      left
      refine ⟨⟨h1, ?_⟩, ?_⟩
      · exact (startsWithL_iff _ _).2 ⟨v, by simp⟩
      · have hsplit : b :: w'.append v = (b :: w') ++ v := rfl
        rw [hsplit, List.drop_left]
        exact hRight
  | cons c u' ih =>
    rw [List.cons_append, List.cons_append]
    have hLeft' : leftOk (some c) u' = true := by
      rw [← leftOk_cons prev]; exact hLeft
    simp only [wordInAux, Bool.or_eq_true]
    right
    have := ih (some c) hLeft'
    simpa using this

theorem wordIn_iff (w l : List Char) :
    wordIn w l = true ↔
      ∃ u v, l = u ++ w ++ v ∧ leftOk none u = true ∧ noWordAt v = true := by
  constructor
  · exact wordInAux_complete w none l
  · rintro ⟨u, v, rfl, h1, h2⟩
    exact wordInAux_sound w none u v h1 h2

/-! ### Occurrences survive trimming -/

theorem dropWhile_append_decomp (p : Char → Bool) (u v w₀ : List Char) (c₀ : Char)
    (hp : p c₀ = false) :
    ∃ u', u' <:+ u ∧ (u ++ (c₀ :: w₀) ++ v).dropWhile p = u' ++ (c₀ :: w₀) ++ v := by
  induction u with
  | nil =>
    refine ⟨[], List.nil_suffix, ?_⟩
    simp [List.dropWhile_cons, hp]
  | cons a u₂ ih =>
    by_cases ha : p a = true
    · obtain ⟨u', hs, hd⟩ := ih
      refine ⟨u', hs.trans (List.suffix_cons a u₂), ?_⟩
      rw [List.cons_append, List.cons_append, List.dropWhile_cons, if_pos ha]
      exact hd
    · refine ⟨a :: u₂, List.suffix_refl _, ?_⟩
      rw [List.cons_append, List.cons_append, List.dropWhile_cons,
        if_neg ha, ← List.cons_append, ← List.cons_append]

theorem getLast?_of_suffix {u' u : List Char} (h : u' <:+ u) (hne : u' ≠ []) :
    u.getLast? = u'.getLast? := by
  obtain ⟨t, rfl⟩ := h
  exact List.getLast?_append_of_ne_nil t hne

theorem head?_of_isPre {v' v : List Char} (h : v' <+: v) (hne : v' ≠ []) :
    v.head? = v'.head? := by
  obtain ⟨t, rfl⟩ := h
  exact List.head?_append_of_ne_nil v' hne

theorem trimL_decomp (w u v : List Char) (hne : w ≠ [])
    (hhead : ∀ c, w.head? = some c → isWs c = false)
    (hlast : ∀ c, w.getLast? = some c → isWs c = false) :
    ∃ u' v', u' <:+ u ∧ v' <+: v ∧ trimL (u ++ w ++ v) = u' ++ w ++ v' := by
  obtain ⟨c₀, w₀, rfl⟩ : ∃ c₀ w₀, w = c₀ :: w₀ := by
    cases w with
    | nil => exact absurd rfl hne
    | cons a b => exact ⟨a, b, rfl⟩
  have h0 : isWs c₀ = false := hhead c₀ rfl
  obtain ⟨u', hu, hdrop⟩ := dropWhile_append_decomp isWs u v w₀ c₀ h0
  cases hL : (c₀ :: w₀).getLast? with
  | none => simp at hL
  | some cn =>
    have hnws : isWs cn = false := hlast cn hL
    have hrevh : (c₀ :: w₀).reverse.head? = some cn := by
      rw [List.head?_reverse]; exact hL
    cases hwr : (c₀ :: w₀).reverse with
    | nil => simp at hwr
    | cons a t =>
      have ha : a = cn := by
        rw [hwr] at hrevh
        simpa using hrevh
      subst ha
      obtain ⟨v'', hv, hdrop2⟩ :=
        dropWhile_append_decomp isWs v.reverse u'.reverse t a hnws
      refine ⟨u', v''.reverse, hu, ?_, ?_⟩
      · exact List.reverse_suffix.mp (by simpa using hv)
      · have hstep : trimL (u ++ (c₀ :: w₀) ++ v)
            = (((u ++ (c₀ :: w₀) ++ v).dropWhile isWs).reverse.dropWhile isWs).reverse :=
          rfl
        rw [hstep, hdrop]
        have hrev : (u' ++ (c₀ :: w₀) ++ v).reverse
            = v.reverse ++ (a :: t) ++ u'.reverse := by
          rw [← hwr]; simp
        rw [hrev, hdrop2, ← hwr]
        simp

/-! ### Occurrences split at and extend across non-word junctions -/

theorem wordIn_append_of_left (d a b : List Char) (hb : noWordAt b = true)
    (h : wordIn d a = true) : wordIn d (a ++ b) = true := by
  obtain ⟨u, v, rfl, h1, h2⟩ := (wordIn_iff _ _).1 h
  refine (wordIn_iff _ _).2 ⟨u, v ++ b, by simp, h1, ?_⟩
  cases v with
  | nil => simpa using hb
  | cons x v' => simpa [noWordAt] using h2

theorem wordIn_append_of_right (d a b : List Char) (ha : leftOk none a = true)
    (h : wordIn d b = true) : wordIn d (a ++ b) = true := by
  obtain ⟨u, v, rfl, h1, h2⟩ := (wordIn_iff _ _).1 h
  refine (wordIn_iff _ _).2 ⟨a ++ u, v, by simp, ?_, h2⟩
  cases hu : u.getLast? with
  | none =>
    have : u = [] := List.getLast?_eq_none_iff.mp hu
    subst this
    simpa [leftOk] using ha
  | some x =>
    have hne : u ≠ [] := by
      intro hcon
      subst hcon
      simp at hu
    have : (a ++ u).getLast? = some x := by
      rw [List.getLast?_append_of_ne_nil a hne]
      exact hu
    have hx : isWordChar x = false := by
      have := h1
      unfold leftOk at this
      rw [hu] at this
      simpa using this
    unfold leftOk
    rw [this]
    simpa using hx

theorem wordIn_append_split (d a b : List Char)
    (hword : ∀ c ∈ d, isWordChar c = true)
    (hj : noWordAt b = true ∨ leftOk none a = true)
    (h : wordIn d (a ++ b) = true) :
    wordIn d a = true ∨ wordIn d b = true := by
  obtain ⟨u, v, hl, hLeft, hRight⟩ := (wordIn_iff _ _).1 h
  rw [List.append_assoc] at hl
  rcases List.append_eq_append_iff.1 hl with ⟨k, hu, hb⟩ | ⟨k, ha, hdv⟩
  · -- u = a ++ k and b = k ++ (d ++ v): the occurrence lies in b
    right
    refine (wordIn_iff _ _).2 ⟨k, v, by rw [hb, List.append_assoc], ?_, hRight⟩
    cases hk : k.getLast? with
    | none => simp [leftOk, hk, noWordBefore]
    | some x =>
      have hne : k ≠ [] := by
        intro hcon; subst hcon; simp at hk
      have hux : u.getLast? = some x := by
        rw [hu, List.getLast?_append_of_ne_nil a hne]; exact hk
      have hx : isWordChar x = false := by
        have := hLeft
        unfold leftOk at this
        rw [hux] at this
        simpa using this
      unfold leftOk
      rw [hk]
      simpa using hx
  · rcases List.append_eq_append_iff.1 hdv with ⟨m, hk2, hv2⟩ | ⟨m, hd2, hb2⟩
    · -- k = d ++ m and v = m ++ b: the occurrence lies in a
      left
      refine (wordIn_iff _ _).2 ⟨u, m, ?_, hLeft, ?_⟩
      · rw [ha, hk2, List.append_assoc]
      · cases m with
        | nil => rfl
        | cons x m' =>
          rw [hv2] at hRight
          simpa [noWordAt] using hRight
    · -- d = k ++ m and b = m ++ v
      cases k with
      | nil =>
        -- the occurrence starts exactly at the junction: it lies in b
        right
        simp only [List.nil_append] at hd2
        refine (wordIn_iff _ _).2 ⟨[], v, ?_, by simp [leftOk, noWordBefore], hRight⟩
        rw [hb2, hd2]
        simp
      | cons kx k' =>
        cases m with
        | nil =>
          -- the occurrence ends exactly at the junction: it lies in a
          left
          rw [List.append_nil] at hd2
          refine (wordIn_iff _ _).2 ⟨u, [], ?_, hLeft, rfl⟩
          rw [ha, ← hd2, List.append_nil]
        | cons mx m' =>
          -- a genuine span: both junction characters are word characters,
          -- contradicting hj
          exfalso
          have hmx : isWordChar mx = true := by
            refine hword mx ?_
            rw [hd2]
            exact List.mem_append_right _ (by simp)
          have hkl : ∃ c, (kx :: k').getLast? = some c ∧ isWordChar c = true := by
            cases hkL : (kx :: k').getLast? with
            | none => simp at hkL
            | some c =>
              refine ⟨c, rfl, hword c ?_⟩
              rw [hd2]
              refine List.mem_append_left _ ?_
              have : c ∈ (kx :: k') := by
                have hmem := List.mem_of_mem_getLast? hkL
                exact hmem
              exact this
          rcases hj with hjb | hja
          · rw [hb2] at hjb
            simp [noWordAt] at hjb
            rw [hjb] at hmx
            simp at hmx
          · obtain ⟨c, hcl, hcw⟩ := hkl
            have hal : a.getLast? = some c := by
              rw [ha, List.getLast?_append_of_ne_nil u (by simp)]
              exact hcl
            unfold leftOk at hja
            rw [hal] at hja
            simp at hja
            rw [hja] at hcw
            simp at hcw

theorem wordIn_trimL (d l : List Char) (hne : d ≠ [])
    (hhead : ∀ c, d.head? = some c → isWs c = false)
    (hlast : ∀ c, d.getLast? = some c → isWs c = false)
    (h : wordIn d l = true) : wordIn d (trimL l) = true := by
  obtain ⟨u, v, rfl, h1, h2⟩ := (wordIn_iff _ _).1 h
  obtain ⟨u', v', hu, hv, heq⟩ := trimL_decomp d u v hne hhead hlast
  refine (wordIn_iff _ _).2 ⟨u', v', heq, ?_, ?_⟩
  · cases hu' : u'.getLast? with
    | none => simp [leftOk, hu', noWordBefore]
    | some x =>
      have hne' : u' ≠ [] := by
        intro hcon; subst hcon; simp at hu'
      have : u.getLast? = some x := by
        rw [getLast?_of_suffix hu hne']; exact hu'
      unfold leftOk at h1 ⊢
      rw [this] at h1
      rw [hu']
      exact h1
  · cases hv' : v' with
    | nil => rfl
    | cons x t =>
      have : v.head? = some x := by
        rw [head?_of_isPre hv (by simp [hv']), hv']; rfl
      cases v with
      | nil => simp at this
      | cons y v₂ =>
        have hxy : y = x := by simpa using this
        subst hxy
        simpa [noWordAt] using h2

theorem containsL_trimL (w l : List Char) (hne : w ≠ [])
    (hhead : ∀ c, w.head? = some c → isWs c = false)
    (hlast : ∀ c, w.getLast? = some c → isWs c = false)
    (h : containsL w l = true) : containsL w (trimL l) = true := by
  obtain ⟨u, v, rfl⟩ := (containsL_iff _ _).1 h
  obtain ⟨u', v', _, _, heq⟩ := trimL_decomp w u v hne hhead hlast
  exact (containsL_iff _ _).2 ⟨u', v', heq⟩

/-! ### Character-level facts -/

theorem isWs_cases {c : Char} (h : isWs c = true) :
    c = ' ' ∨ c = '\t' ∨ c = '\n' ∨ c = '\r' ∨ c = '\x0b' ∨ c = '\x0c' := by
  simp only [isWs, Bool.or_eq_true, decide_eq_true_eq] at h
  tauto

theorem toLower_of_isWs {c : Char} (h : isWs c = true) : c.toLower = c := by
  rcases isWs_cases h with rfl | rfl | rfl | rfl | rfl | rfl <;> decide

theorem toUpper_of_isWs {c : Char} (h : isWs c = true) : c.toUpper = c := by
  rcases isWs_cases h with rfl | rfl | rfl | rfl | rfl | rfl <;> decide

theorem not_isWordChar_of_isWs {c : Char} (h : isWs c = true) :
    isWordChar c = false := by
  rcases isWs_cases h with rfl | rfl | rfl | rfl | rfl | rfl <;> decide

/-- Every character that `natCharsAux` emits is a decimal digit. -/
theorem natCharsAux_mem_digits (fuel n : Nat) :
    ∀ c ∈ natCharsAux fuel n, c ∈ "0123456789".data := by
  induction fuel generalizing n with
  | zero => simp [natCharsAux]
  | succ fuel ih =>
    intro c hc
    simp only [natCharsAux] at hc
    by_cases h10 : n < 10
    · rw [if_pos h10] at hc
      have hc' : c = Nat.digitChar n := by simpa using hc
      subst hc'
      interval_cases n <;> decide
    · rw [if_neg h10] at hc
      rcases List.mem_append.1 hc with hc1 | hc2
      · exact ih (n / 10) c hc1
      · have hc' : c = Nat.digitChar (n % 10) := by simpa using hc2
        subst hc'
        have : n % 10 < 10 := Nat.mod_lt _ (by omega)
        interval_cases hm : n % 10 <;> simp_all <;> decide

theorem natChars_mem_digits (n : Nat) :
    ∀ c ∈ natChars n, c ∈ "0123456789".data :=
  natCharsAux_mem_digits (n + 1) n

theorem toLower_of_digit {c : Char} (h : c ∈ "0123456789".data) :
    c.toLower = c := by
  fin_cases h <;> decide

theorem isWs_of_digit_false {c : Char} (h : c ∈ "0123456789".data) :
    isWs c = false := by
  fin_cases h <;> decide

theorem map_fix_of_mem {f : Char → Char} :
    ∀ l : List Char, (∀ c ∈ l, f c = c) → l.map f = l
  | [], _ => rfl
  | c :: t, h => by
    simp only [List.map_cons]
    rw [h c (by simp), map_fix_of_mem t (fun x hx => h x (by simp [hx]))]

theorem map_toLower_natChars (n : Nat) :
    (natChars n).map Char.toLower = natChars n :=
  map_fix_of_mem _ (fun c hc => toLower_of_digit (natChars_mem_digits n c hc))

/-! ### The row-limit rewriter -/

theorem trySelectAt_some {m post : List Char} (h : trySelectAt m = some post) :
    ∃ sel wsr, m = sel ++ wsr ++ post ∧ sel.map Char.toLower = "select".data ∧
      wsr ≠ [] ∧ ∀ c ∈ wsr, isWs c = true := by
  by_cases hcond :
      (startsWithL "select".data (m.map Char.toLower) && headIsWs (m.drop 6)) = true
  · rw [trySelectAt, if_pos hcond] at h
    obtain ⟨hs, hw⟩ := Bool.and_eq_true _ _ ▸ hcond
    have hpost : post = (m.drop 6).dropWhile isWs := by
      injection h with h'; exact h'.symm
    refine ⟨m.take 6, (m.drop 6).takeWhile isWs, ?_, ?_, ?_, ?_⟩
    · rw [List.append_assoc, hpost, List.takeWhile_append_dropWhile,
        List.take_append_drop]
    · obtain ⟨t, ht⟩ := (startsWithL_iff _ _).1 hs
      have h6 : ("select".data).length = 6 := by decide
      have : (m.map Char.toLower).take 6 = "select".data := by
        rw [ht, ← h6, List.take_left]
      rw [← List.map_take] at this
      exact this
    · cases hd6 : m.drop 6 with
      | nil => rw [hd6] at hw; simp [headIsWs] at hw
      | cons c r =>
        rw [hd6] at hw
        have hc : isWs c = true := by simpa [headIsWs] using hw
        simp [List.takeWhile_cons, hc]
    · intro c hc
      exact List.mem_takeWhile_imp hc
  · rw [trySelectAt, if_neg hcond] at h
    simp at h

theorem findSel_some :
    ∀ {l pre post : List Char}, findSel l = some (pre, post) →
      ∃ m, l = pre ++ m ∧ trySelectAt m = some post := by
  intro l
  induction l with
  | nil => intro pre post h; simp [findSel] at h
  | cons c rest ih =>
    intro pre post h
    cases htry : trySelectAt (c :: rest) with
    | some p =>
      rw [findSel, htry] at h
      obtain ⟨h1, h2⟩ : [] = pre ∧ p = post := by
        constructor <;> [injection h with hh; injection h with hh] <;>
          simp_all
      subst h1; subst h2
      exact ⟨c :: rest, rfl, htry⟩
    | none =>
      rw [findSel, htry] at h
      cases hrec : findSel rest with
      | some pp =>
        obtain ⟨pre', post'⟩ := pp
        rw [hrec] at h
        have h1 : c :: pre' = pre ∧ post' = post := by
          constructor <;> [injection h with hh; injection h with hh] <;> simp_all
        obtain ⟨h1, h2⟩ := h1
        subst h1; subst h2
        obtain ⟨m, hm, hmt⟩ := ih hrec
        exact ⟨m, by simp [hm], hmt⟩
      | none => rw [hrec] at h; simp at h

/-- The inserted `SELECT TOP ${n} ` makes the rewritten text contain
`SELECT TOP` after trimming and uppercasing. -/
theorem insertTop_contains (pre post : List Char) (n : Nat) :
    containsL "SELECT TOP".data
      (trimL ((pre ++ "SELECT TOP ".data ++ natChars n ++ [' '] ++ post).map
        Char.toUpper)) = true := by
  apply containsL_trimL _ _ (by decide)
  · intro c hc
    rw [show ("SELECT TOP".data).head? = some 'S' by decide] at hc
    injection hc with hc'
    subst hc'
    decide
  · intro c hc
    rw [show ("SELECT TOP".data).getLast? = some 'P' by decide] at hc
    injection hc with hc'
    subst hc'
    decide
  · have hsplit : pre ++ "SELECT TOP ".data ++ natChars n ++ [' '] ++ post
        = pre ++ "SELECT TOP".data ++ ([' '] ++ natChars n ++ [' '] ++ post) := by
      rw [show "SELECT TOP ".data = "SELECT TOP".data ++ [' '] by decide]
      simp [List.append_assoc]
    rw [hsplit]
    simp only [List.map_append]
    rw [show ("SELECT TOP".data).map Char.toUpper = "SELECT TOP".data by decide]
    exact (containsL_iff _ _).2
      ⟨pre.map Char.toUpper,
        ([' '] ++ natChars n ++ [' '] ++ post).map Char.toUpper,
        by simp [List.append_assoc]⟩

theorem bool_eq_false {b : Bool} (h : ¬ b = true) : b = false := by
  cases b
  · rfl
  · exact absurd rfl h

theorem addRowLimit_eq_self_top {q : List Char} (n : Nat)
    (h1 : containsL "SELECT TOP".data (trimL (q.map Char.toUpper)) = true) :
    addRowLimit q n = q := by
  simp [addRowLimit, h1]

theorem addRowLimit_insert_eq {q pre post : List Char} {n : Nat}
    (h1 : containsL "SELECT TOP".data (trimL (q.map Char.toUpper)) = false)
    (h2 : (containsL "OFFSET".data (trimL (q.map Char.toUpper))
        && containsL "FETCH".data (trimL (q.map Char.toUpper))) = false)
    (hf : findSel q = some (pre, post)) :
    addRowLimit q n = pre ++ "SELECT TOP ".data ++ natChars n ++ [' '] ++ post := by
  simp [addRowLimit, h1, h2, hf]

/-- C5: `addRowLimit` is idempotent — applying it twice yields the same
text as applying it once, because the inserted `SELECT TOP ${n} ` makes
the `SELECT TOP` presence check succeed on the second application, and
every other branch returns its input unchanged. -/
theorem addRowLimit_idempotent (q : List Char) (n : Nat) :
    addRowLimit (addRowLimit q n) n = addRowLimit q n := by
  by_cases h1 : containsL "SELECT TOP".data (trimL (q.map Char.toUpper)) = true
  · rw [addRowLimit_eq_self_top n h1, addRowLimit_eq_self_top n h1]
  · have h1' := bool_eq_false h1
    by_cases h2 : (containsL "OFFSET".data (trimL (q.map Char.toUpper))
        && containsL "FETCH".data (trimL (q.map Char.toUpper))) = true
    · have he : addRowLimit q n = q := by simp [addRowLimit, h1', h2]
      rw [he, he]
    · have h2' := bool_eq_false h2
      cases hf : findSel q with
      | none =>
        have he : addRowLimit q n = q := by simp [addRowLimit, h1', h2', hf]
        rw [he, he]
      | some pp =>
        obtain ⟨pre, post⟩ := pp
        rw [addRowLimit_insert_eq h1' h2' hf]
        exact addRowLimit_eq_self_top n (insertTop_contains pre post n)

/-- C6 counterexample: `addRowLimit "EXPLAIN foo" 50` returns its input
unchanged although the text contains no row-limiting clause — the
normalized text contains neither `SELECT TOP` nor an OFFSET/FETCH pair —
so "returns its input unchanged exactly when the text already contains a
row-limiting clause" fails: there is a third unchanged case, a text with
no `SELECT` keyword followed by whitespace. -/
theorem addRowLimit_unchanged_no_clause :
    addRowLimit "EXPLAIN foo".data 50 = "EXPLAIN foo".data
    ∧ containsL "SELECT TOP".data
        (trimL (("EXPLAIN foo".data).map Char.toUpper)) = false
    ∧ (containsL "OFFSET".data (trimL (("EXPLAIN foo".data).map Char.toUpper))
        && containsL "FETCH".data
          (trimL (("EXPLAIN foo".data).map Char.toUpper))) = false := by
  refine ⟨by decide, by decide, by decide⟩

/-- C6 amended: `addRowLimit` returns its input unchanged exactly when
the trimmed, uppercased text contains `SELECT TOP`, or contains both
`OFFSET` and `FETCH`, or contains no `SELECT` keyword followed by
whitespace; otherwise it replaces the first `SELECT` keyword and its
trailing whitespace by the `SELECT TOP ${n} ` qualifier.  In particular
`addRowLimit "SELECT a FROM t" 50 = "SELECT TOP 50 a FROM t"` and
`addRowLimit "SELECT TOP 10 a FROM t" 50` is unchanged. -/
theorem addRowLimit_unchanged_iff :
    (∀ q n, addRowLimit q n = q ↔
        (containsL "SELECT TOP".data (trimL (q.map Char.toUpper)) = true
          ∨ (containsL "OFFSET".data (trimL (q.map Char.toUpper)) = true
              ∧ containsL "FETCH".data (trimL (q.map Char.toUpper)) = true)
          ∨ findSel q = none))
    ∧ (∀ q n pre post,
        containsL "SELECT TOP".data (trimL (q.map Char.toUpper)) = false →
        (containsL "OFFSET".data (trimL (q.map Char.toUpper))
          && containsL "FETCH".data (trimL (q.map Char.toUpper))) = false →
        findSel q = some (pre, post) →
        addRowLimit q n = pre ++ "SELECT TOP ".data ++ natChars n ++ [' '] ++ post)
    ∧ addRowLimit "SELECT a FROM t".data 50 = "SELECT TOP 50 a FROM t".data
    ∧ addRowLimit "SELECT TOP 10 a FROM t".data 50
        = "SELECT TOP 10 a FROM t".data := by
  refine ⟨?_, ?_, by decide, by decide⟩
  · intro q n
    constructor
    · intro he
      by_cases h1 : containsL "SELECT TOP".data (trimL (q.map Char.toUpper)) = true
      · exact Or.inl h1
      · have h1' := bool_eq_false h1
        by_cases h2 : (containsL "OFFSET".data (trimL (q.map Char.toUpper))
            && containsL "FETCH".data (trimL (q.map Char.toUpper))) = true
        · simp only [Bool.and_eq_true] at h2
          exact Or.inr (Or.inl h2)
        · have h2' := bool_eq_false h2
          cases hf : findSel q with
          | none => exact Or.inr (Or.inr rfl)
          | some pp =>
            obtain ⟨pre, post⟩ := pp
            exfalso
            have hr := addRowLimit_insert_eq h1' h2' hf (n := n)
            rw [he] at hr
            have hcontra :
                containsL "SELECT TOP".data (trimL (q.map Char.toUpper)) = true := by
              rw [hr]; exact insertTop_contains pre post n
            simp [h1'] at hcontra
    · intro hcond
      rcases hcond with h1 | ⟨ho, hf⟩ | hnone
      · simp [addRowLimit, h1]
      · by_cases h1 : containsL "SELECT TOP".data (trimL (q.map Char.toUpper)) = true
        · simp [addRowLimit, h1]
        · simp [addRowLimit, bool_eq_false h1, ho, hf]
      · by_cases h1 : containsL "SELECT TOP".data (trimL (q.map Char.toUpper)) = true
        · simp [addRowLimit, h1]
        · by_cases h2 : (containsL "OFFSET".data (trimL (q.map Char.toUpper))
              && containsL "FETCH".data (trimL (q.map Char.toUpper))) = true
          · simp [addRowLimit, bool_eq_false h1, h2]
          · simp [addRowLimit, bool_eq_false h1, bool_eq_false h2, hnone]
  · intro q n pre post h1 h2 hf
    exact addRowLimit_insert_eq h1 h2 hf

/-- Witness for the C6 theorem at a concrete input: a query already
carrying a `SELECT TOP` qualifier is unchanged. -/
theorem addRowLimit_unchanged_iff_witness :
    addRowLimit "SELECT TOP 5 x FROM t".data 50 = "SELECT TOP 5 x FROM t".data :=
  (addRowLimit_unchanged_iff.1 "SELECT TOP 5 x FROM t".data 50).mpr
    (Or.inl (by decide))

/-! ### Claims C2 and C3: the statement classifier -/

/-- C2 counterexample: `"set statistics io on"` begins with none of
`SELECT`, `WITH`, `EXPLAIN` after trimming and lowercasing, yet
`validateReadOnlyQuery` accepts it — the allow list also admits the
`SET STATISTICS` / `SET SHOWPLAN` diagnostic directives. -/
theorem validate_accepts_set_statistics :
    validateReadOnlyQuery "set statistics io on".data = true
    ∧ startsWithL "select".data
        (trimL (("set statistics io on".data).map Char.toLower)) = false
    ∧ startsWithL "with".data
        (trimL (("set statistics io on".data).map Char.toLower)) = false
    ∧ startsWithL "explain".data
        (trimL (("set statistics io on".data).map Char.toLower)) = false := by
  refine ⟨by decide, by decide, by decide, by decide⟩

/-- C2 amended: every SQL text whose trimmed, lowercased form fails the
full allow-list test — it begins with none of `select`, `with`,
`explain`, or `set` followed by whitespace and `statistics`/`showplan` —
is rejected by `validateReadOnlyQuery`, whatever the deny-list scans
say. -/
theorem validate_rejects_without_allowed_start (q : List Char)
    (h : allowedStart (trimL (q.map Char.toLower)) = false) :
    validateReadOnlyQuery q = false := by
  simp only [validateReadOnlyQuery]
  by_cases hd : (dangerousKeywords (trimL (q.map Char.toLower))
      || intoScan (trimL (q.map Char.toLower))
      || setEqScan (trimL (q.map Char.toLower))) = true
  · rw [if_pos hd]
  · rw [if_neg hd]
    exact h

/-- Witness for the C2 theorem: `GRANT ALL TO admin` matches no deny-list
pattern but fails the allow-list test, hence is rejected. -/
theorem validate_rejects_without_allowed_start_witness :
    validateReadOnlyQuery "GRANT ALL TO admin".data = false :=
  validate_rejects_without_allowed_start _ (by decide)

/-- C3: every SQL text containing the whole word `DROP` — in any letter
case, with whitespace (or the ends of the text) around it — is rejected
by `validateReadOnlyQuery`, even when it begins with `SELECT`: the
deny-list scan fires before the allow-list test is consulted. -/
theorem validate_rejects_drop (q u w v : List Char)
    (hq : q = u ++ w ++ v)
    (hw : w.map Char.toLower = "drop".data)
    (hu : u = [] ∨ ∃ c, u.getLast? = some c ∧ isWs c = true)
    (hv : v = [] ∨ ∃ c, v.head? = some c ∧ isWs c = true) :
    validateReadOnlyQuery q = false := by
  have hlow : q.map Char.toLower
      = u.map Char.toLower ++ "drop".data ++ v.map Char.toLower := by
    rw [hq]
    simp [List.map_append, hw]
  have hword : wordIn "drop".data (q.map Char.toLower) = true := by
    refine (wordIn_iff _ _).2 ⟨u.map Char.toLower, v.map Char.toLower, hlow, ?_, ?_⟩
    · rcases hu with rfl | ⟨c, hc, hcw⟩
      · simp [leftOk, noWordBefore]
      · have : (u.map Char.toLower).getLast? = some c := by
          rw [List.getLast?_map, hc]
          simp [toLower_of_isWs hcw]
        unfold leftOk
        rw [this]
        simp [not_isWordChar_of_isWs hcw]
    · rcases hv with rfl | ⟨c, hc, hcw⟩
      · simp [noWordAt]
      · cases v with
        | nil => simp at hc
        | cons y v₂ =>
          have hy : y = c := by simpa using hc
          subst hy
          simp [noWordAt, toLower_of_isWs hcw, not_isWordChar_of_isWs hcw]
  have htrim : wordIn "drop".data (trimL (q.map Char.toLower)) = true := by
    refine wordIn_trimL _ _ (by decide) ?_ ?_ hword
    · intro c hc
      rw [show ("drop".data).head? = some 'd' by decide] at hc
      injection hc with hc'
      subst hc'
      decide
    · intro c hc
      rw [show ("drop".data).getLast? = some 'p' by decide] at hc
      injection hc with hc'
      subst hc'
      decide
  have hdang : dangerousKeywords (trimL (q.map Char.toLower)) = true := by
    refine List.any_eq_true.2 ⟨"drop".data, ?_, htrim⟩
    decide
  simp only [validateReadOnlyQuery]
  rw [if_pos (by rw [hdang]; rfl)]

/-- Witness for the C3 theorem: the batch from the specification scenario
is rejected. -/
theorem validate_rejects_drop_witness :
    validateReadOnlyQuery "SELECT * FROM Orders; DROP TABLE Orders;".data
      = false :=
  validate_rejects_drop _ "SELECT * FROM Orders; ".data "DROP".data
    " TABLE Orders;".data (by decide) (by decide)
    (Or.inr ⟨' ', by decide, by decide⟩) (Or.inr ⟨' ', by decide, by decide⟩)

/-! ### Claim C1: what reaches the server through `executeQuery` -/

theorem denyWord_ne_nil {d : List Char} (hd : d ∈ denyWords) : d ≠ [] := by
  have all : ∀ d ∈ denyWords, d ≠ [] := by decide
  exact all d hd

theorem denyWord_word {d : List Char} (hd : d ∈ denyWords) :
    ∀ c ∈ d, isWordChar c = true := by
  have all : ∀ d ∈ denyWords, ∀ c ∈ d, isWordChar c = true := by decide
  exact all d hd

theorem denyWord_no_digit {d : List Char} (hd : d ∈ denyWords) :
    ∀ c ∈ d, c ∉ "0123456789".data := by
  have all : ∀ d ∈ denyWords, ∀ c ∈ d, c ∉ "0123456789".data := by decide
  exact all d hd

theorem not_isWs_of_isWordChar {c : Char} (h : isWordChar c = true) :
    isWs c = false := by
  by_cases hw : isWs c = true
  · rw [not_isWordChar_of_isWs hw] at h
    cases h
  · exact bool_eq_false hw

theorem denyWord_head_not_ws {d : List Char} (hd : d ∈ denyWords) :
    ∀ c, d.head? = some c → isWs c = false := fun c hc =>
  not_isWs_of_isWordChar (denyWord_word hd c (List.mem_of_mem_head? hc))

theorem denyWord_last_not_ws {d : List Char} (hd : d ∈ denyWords) :
    ∀ c, d.getLast? = some c → isWs c = false := fun c hc =>
  not_isWs_of_isWordChar (denyWord_word hd c (List.mem_of_mem_getLast? hc))

/-- A validated query has no deny-list word in its normalized form. -/
theorem validate_no_denyWord {q : List Char}
    (h : validateReadOnlyQuery q = true) :
    ∀ d ∈ denyWords, wordIn d (trimL (q.map Char.toLower)) = false := by
  intro d hd
  apply bool_eq_false
  intro hw
  have hdang : dangerousKeywords (trimL (q.map Char.toLower)) = true :=
    List.any_eq_true.2 ⟨d, hd, hw⟩
  simp only [validateReadOnlyQuery] at h
  rw [if_pos (by rw [hdang]; rfl)] at h
  cases h

/-- A validated query has no deny-list word even before trimming (the
word survives trimming, since its characters are not whitespace). -/
theorem validate_no_denyWord_lower {q : List Char}
    (h : validateReadOnlyQuery q = true) :
    ∀ d ∈ denyWords, wordIn d (q.map Char.toLower) = false := by
  intro d hd
  apply bool_eq_false
  intro hw
  have htrim := wordIn_trimL d _ (denyWord_ne_nil hd) (denyWord_head_not_ws hd)
    (denyWord_last_not_ws hd) hw
  have h2 := validate_no_denyWord h d hd
  rw [h2] at htrim
  cases htrim

theorem denyWord_not_in_top {d : List Char} (hd : d ∈ denyWords) :
    wordIn d " top ".data = false := by
  have all : ∀ d ∈ denyWords, wordIn d " top ".data = false := by decide
  exact all d hd

theorem denyWord_not_in_space {d : List Char} (hd : d ∈ denyWords) :
    wordIn d [' '] = false := by
  have all : ∀ d ∈ denyWords, wordIn d [' '] = false := by decide
  exact all d hd

theorem denyWord_not_in_use {d : List Char} (hd : d ∈ denyWords) :
    wordIn d "use [".data = false := by
  have all : ∀ d ∈ denyWords, wordIn d "use [".data = false := by decide
  exact all d hd

theorem denyWord_not_in_semi {d : List Char} (hd : d ∈ denyWords) :
    wordIn d "]; ".data = false := by
  have all : ∀ d ∈ denyWords, wordIn d "]; ".data = false := by decide
  exact all d hd

/-- No deny-list word occurs in a run of decimal digits. -/
theorem denyWord_not_in_natChars {d : List Char} (hd : d ∈ denyWords) (n : Nat) :
    wordIn d (natChars n) = false := by
  apply bool_eq_false
  intro hw
  obtain ⟨u, v, hD, _, _⟩ := (wordIn_iff _ _).1 hw
  obtain ⟨c₀, d₀, rfl⟩ : ∃ c₀ d₀, d = c₀ :: d₀ := by
    cases d with
    | nil => exact absurd rfl (denyWord_ne_nil hd)
    | cons a b => exact ⟨a, b, rfl⟩
  have hc₀D : c₀ ∈ natChars n := by
    rw [hD]
    exact List.mem_append_left _ (List.mem_append_right _ (by simp))
  have hdig := natChars_mem_digits n c₀ hc₀D
  exact denyWord_no_digit hd c₀ (by simp) hdig

/-- If a deny-list word occurs in the lowercased rewritten query, it
already occurred in the lowercased original query: the rewrite either
returns its input or splices in `SELECT TOP ${n} ` — text made of the
non-word junctions and the words `select`, `top` and a digit run, in
which no deny-list word fits, and gluing it after the original `SELECT`
keyword creates no new whole-word occurrence. -/
theorem noWordAt_append_left {a b : List Char} (hne : a ≠ [])
    (h : noWordAt a = true) : noWordAt (a ++ b) = true := by
  cases a with
  | nil => exact absurd rfl hne
  | cons c t => simpa [noWordAt] using h

theorem wordIn_lower_addRowLimit {d q : List Char} {n : Nat} (hd : d ∈ denyWords)
    (h : wordIn d ((addRowLimit q n).map Char.toLower) = true) :
    wordIn d (q.map Char.toLower) = true := by
  by_cases h1 : containsL "SELECT TOP".data (trimL (q.map Char.toUpper)) = true
  · rwa [addRowLimit_eq_self_top n h1] at h
  · have h1' := bool_eq_false h1
    by_cases h2 : (containsL "OFFSET".data (trimL (q.map Char.toUpper))
        && containsL "FETCH".data (trimL (q.map Char.toUpper))) = true
    · have he : addRowLimit q n = q := by simp [addRowLimit, h1', h2]
      rwa [he] at h
    · have h2' := bool_eq_false h2
      cases hf : findSel q with
      | none =>
        have he : addRowLimit q n = q := by simp [addRowLimit, h1', h2', hf]
        rwa [he] at h
      | some pp =>
        obtain ⟨pre, post⟩ := pp
        rw [addRowLimit_insert_eq h1' h2' hf] at h
        obtain ⟨m, hqm, hmt⟩ := findSel_some hf
        obtain ⟨sel, wsr, hm, hsel, hwne, hws⟩ := trySelectAt_some hmt
        -- notation for the lowercased pieces
        have hlwsr : wsr.map Char.toLower = wsr :=
          map_fix_of_mem wsr (fun c hc => toLower_of_isWs (hws c hc))
        have hlq : q.map Char.toLower
            = ((pre.map Char.toLower ++ "select".data) ++ wsr)
              ++ post.map Char.toLower := by
          rw [hqm, hm]
          simp [List.map_append, hsel, hlwsr, List.append_assoc]
        -- head and last characters of the whitespace run
        obtain ⟨wc, wrest, rfl⟩ : ∃ wc wrest, wsr = wc :: wrest := by
          cases wsr with
          | nil => exact absurd rfl hwne
          | cons a b => exact ⟨a, b, rfl⟩
        have hwcws : isWs wc = true := hws wc (by simp)
        -- decompose the lowercased rewritten text
        have hlim : ((pre ++ "SELECT TOP ".data ++ natChars n ++ [' '] ++ post).map
              Char.toLower)
            = (pre.map Char.toLower ++ "select".data)
              ++ (" top ".data ++ (natChars n ++ ([' '] ++ post.map Char.toLower))) := by
          simp only [List.map_append]
          rw [show ("SELECT TOP ".data).map Char.toLower = "select top ".data by decide,
            map_toLower_natChars,
            show ([' '] : List Char).map Char.toLower = [' '] by decide,
            show "select top ".data = "select".data ++ " top ".data by decide]
          simp [List.append_assoc]
        rw [hlim] at h
        have hdword := denyWord_word hd
        have hdne := denyWord_ne_nil hd
        -- split at the junction after `select`
        rcases wordIn_append_split d _ _ hdword
            (Or.inl (noWordAt_append_left (by decide) (by decide))) h with hA | hB
        · -- occurrence inside `pre ++ select`: extend it to the original query
          rw [hlq]
          rw [List.append_assoc]
          apply wordIn_append_of_left d _ _ ?_ hA
          simp [noWordAt, not_isWordChar_of_isWs hwcws]
        · -- occurrence inside ` top D post`
          rcases wordIn_append_split d _ _ hdword
              (Or.inr (by decide)) hB with hTop | hB₂
          · rw [denyWord_not_in_top hd] at hTop
            cases hTop
          · rcases wordIn_append_split d _ _ hdword
                (Or.inl (by simp [noWordAt]; decide)) hB₂ with hD | hB₃
            · rw [denyWord_not_in_natChars hd n] at hD
              cases hD
            · rcases wordIn_append_split d _ _ hdword
                  (Or.inr (by decide)) hB₃ with hSp | hPost
              · rw [denyWord_not_in_space hd] at hSp
                cases hSp
              · -- occurrence inside `post`: extend it to the original query
                rw [hlq]
                apply wordIn_append_of_right d _ _ ?_ hPost
                cases hg : ((pre.map Char.toLower ++ "select".data)
                    ++ wc :: wrest).getLast? with
                | none =>
                  rw [List.getLast?_eq_none_iff] at hg
                  simp at hg
                | some x =>
                  have hx : x ∈ wc :: wrest := by
                    rw [List.getLast?_append_of_ne_nil _ (by simp)] at hg
                    exact List.mem_of_mem_getLast? hg
                  unfold leftOk
                  rw [hg]
                  simp [not_isWordChar_of_isWs (hws x hx)]

/-- The sound part of the C1 invariant: if `executeQuery` reaches the
driver, the validated (and row-limited) query contributes no deny-list
word to the text sent; only the unvalidated `database` argument can
smuggle one in.  Formally: when the database argument contains no write
keyword, neither does the full text sent to the server. -/
theorem executeQuery_preserves_no_write (db q t : List Char) (n : Nat)
    (hdb : containsWriteWord db = false)
    (hex : executeQuery db q n = some t) :
    containsWriteWord t = false := by
  by_cases hval : validateReadOnlyQuery q = true
  · rw [executeQuery, if_pos hval] at hex
    injection hex with ht
    subst ht
    apply bool_eq_false
    intro hcon
    obtain ⟨d, hd, hw⟩ := List.any_eq_true.1 hcon
    have hdword := denyWord_word hd
    have hlowuse : (useQuery db (addRowLimit q n)).map Char.toLower
        = (("use [".data ++ db.map Char.toLower) ++ "]; ".data)
          ++ (addRowLimit q n).map Char.toLower := by
      rw [useQuery]
      simp only [List.map_append]
      rw [show ("USE [".data).map Char.toLower = "use [".data by decide,
        show ("]; ".data).map Char.toLower = "]; ".data by decide]
    rw [hlowuse] at hw
    have hJ1 : leftOk none
        (("use [".data ++ db.map Char.toLower) ++ "]; ".data) = true := by
      unfold leftOk
      rw [List.getLast?_append_of_ne_nil _ (by decide),
        show ("]; ".data).getLast? = some ' ' by decide]
      decide
    rcases wordIn_append_split d _ _ hdword (Or.inr hJ1) hw with hA | hLim
    · rcases wordIn_append_split d _ _ hdword (Or.inl (by decide)) hA
          with hU | hSemi
      · rcases wordIn_append_split d _ _ hdword (Or.inr (by decide)) hU
            with hUse | hDb
        · rw [denyWord_not_in_use hd] at hUse
          cases hUse
        · have : containsWriteWord db = true := List.any_eq_true.2 ⟨d, hd, hDb⟩
          rw [hdb] at this
          cases this
      · rw [denyWord_not_in_semi hd] at hSemi
        cases hSemi
    · have hq := wordIn_lower_addRowLimit hd hLim
      have hfalse := validate_no_denyWord_lower hval d hd
      rw [hfalse] at hq
      cases hq
  · rw [executeQuery, if_neg hval] at hex
    cases hex

/-- C1 (code bug): the `database` argument is interpolated into
`USE [${database}]; ` without any validation, so a crafted database
value makes a mutating statement reach the server even though the query
text passes `validateReadOnlyQuery`: with database
`m]; DROP TABLE t; --` and query `SELECT 1`, `executeQuery` succeeds and
the full text sent to the driver contains the whole word `DROP`. -/
theorem executeQuery_database_injection :
    executeQuery "m]; DROP TABLE t; --".data "SELECT 1".data 1000
      = some ("USE [m]; DROP TABLE t; --]; SELECT TOP 1000 1".data)
    ∧ containsWriteWord ("USE [m]; DROP TABLE t; --]; SELECT TOP 1000 1".data)
      = true := by
  refine ⟨by decide, by decide⟩

/-! ### Claims C7, C9 and C10: the connection pool manager -/

theorem createAndConnect_error {config connectOk key s e s'}
    (h : createAndConnect config connectOk key s = (Except.error e, s')) :
    s' = s := by
  unfold createAndConnect at h
  by_cases h1 : (config.authentication = "sql".data
      && (strFalsy config.username || strFalsy config.password)) = true
  · rw [if_pos h1] at h
    injection h with _ hs
    exact hs.symm
  · rw [if_neg h1] at h
    by_cases h2 : connectOk = true
    · rw [if_pos h2] at h
      injection h with hf _
      cases hf
    · rw [if_neg h2] at h
      injection h with _ hs
      exact hs.symm

theorem createAndConnect_ok {config connectOk key s p s'}
    (h : createAndConnect config connectOk key s = (Except.ok p, s')) :
    p = ⟨s.nextId, true⟩ ∧ s'.pools = (key, p) :: s.pools
      ∧ s'.nextId = s.nextId + 1 := by
  unfold createAndConnect at h
  by_cases h1 : (config.authentication = "sql".data
      && (strFalsy config.username || strFalsy config.password)) = true
  · rw [if_pos h1] at h
    injection h with hf _
    cases hf
  · rw [if_neg h1] at h
    by_cases h2 : connectOk = true
    · rw [if_pos h2] at h
      injection h with hf hs
      injection hf with hp
      subst hp
      subst hs
      exact ⟨rfl, rfl, rfl⟩
    · rw [if_neg h2] at h
      injection h with hf _
      cases hf

theorem getConnection_error_state {config connectOk s e s'}
    (h : getConnection config connectOk s = (Except.error e, s')) :
    s' = s := by
  unfold getConnection at h
  cases hl : lookupPool s.pools (getConnectionKey config) with
  | some pool =>
    simp only [hl] at h
    by_cases hc : pool.connected = true
    · rw [if_pos hc] at h
      injection h with hf _
      cases hf
    · rw [if_neg hc] at h
      exact createAndConnect_error h
  | none =>
    simp only [hl] at h
    exact createAndConnect_error h

theorem getConnection_ok_cases {config connectOk s p s'}
    (h : getConnection config connectOk s = (Except.ok p, s')) :
    (s' = s ∧ lookupPool s.pools (getConnectionKey config) = some p
        ∧ p.connected = true)
      ∨ (p = ⟨s.nextId, true⟩
          ∧ s'.pools = (getConnectionKey config, p) :: s.pools
          ∧ s'.nextId = s.nextId + 1) := by
  unfold getConnection at h
  cases hl : lookupPool s.pools (getConnectionKey config) with
  | some pool =>
    simp only [hl] at h
    by_cases hc : pool.connected = true
    · rw [if_pos hc] at h
      injection h with hf hs
      injection hf with hp
      subst hp
      exact Or.inl ⟨hs.symm, rfl, hc⟩
    · rw [if_neg hc] at h
      exact Or.inr (createAndConnect_ok h)
  | none =>
    simp only [hl] at h
    exact Or.inr (createAndConnect_ok h)

theorem lookupPool_mem {ps : List (List Char × Pool)} {key : List Char} {p : Pool}
    (h : lookupPool ps key = some p) : (key, p) ∈ ps := by
  induction ps with
  | nil => simp [lookupPool] at h
  | cons e rest ih =>
    obtain ⟨k, q⟩ := e
    by_cases hk : k = key
    · subst hk
      rw [lookupPool, if_pos rfl] at h
      injection h with hq
      subst hq
      exact List.mem_cons_self _ _
    · rw [lookupPool, if_neg hk] at h
      exact List.mem_cons_of_mem _ (ih h)

/-- C10: a failed `getConnection` call — missing credentials for `sql`
authentication, or a failing `pool.connect()` — leaves the pool registry
exactly as it was; and after any call, every registered pool either was
registered before the call or reports connected (a dead pool is never
registered, because registration happens only after a successful
connect). -/
theorem getConnection_failure_preserves_registry :
    (∀ config connectOk s e s',
        getConnection config connectOk s = (Except.error e, s') → s' = s)
    ∧ (∀ config connectOk s r s',
        getConnection config connectOk s = (r, s') →
        ∀ k p, lookupPool s'.pools k = some p →
          lookupPool s.pools k = some p ∨ p.connected = true) := by
  constructor
  · intro config connectOk s e s' h
    exact getConnection_error_state h
  · intro config connectOk s r s' h k p hl
    cases r with
    | error e =>
      rw [getConnection_error_state h] at hl
      exact Or.inl hl
    | ok q =>
      rcases getConnection_ok_cases h with ⟨hs, _, _⟩ | ⟨hq, hpools, _⟩
      · rw [hs] at hl
        exact Or.inl hl
      · rw [hpools] at hl
        by_cases hk : getConnectionKey config = k
        · rw [lookupPool, if_pos hk] at hl
          injection hl with hp
          subst hp
          rw [hq]
          exact Or.inr rfl
        · rw [lookupPool, if_neg hk] at hl
          exact Or.inl hl

/-- Witness for the C10 theorem: a call with `sql` authentication and a
missing password fails and leaves the empty registry empty; and after a
successful call from the empty registry, the registered pool reports
connected. -/
theorem getConnection_failure_preserves_registry_witness :
    emptyManager = emptyManager
    ∧ (lookupPool emptyManager.pools (getConnectionKey cfgRace)
        = some ⟨0, true⟩ ∨ (⟨0, true⟩ : Pool).connected = true) :=
  ⟨getConnection_failure_preserves_registry.1
      ⟨"h".data, none, "db".data, "sql".data, some "u".data, none⟩ true
      emptyManager "SQL authentication requires username and password".data
      emptyManager (by decide),
    getConnection_failure_preserves_registry.2 cfgRace true emptyManager
      (Except.ok ⟨0, true⟩)
      ⟨[(getConnectionKey cfgRace, ⟨0, true⟩)], 1⟩ (by decide)
      (getConnectionKey cfgRace) ⟨0, true⟩ (by decide)⟩

theorem colon_split {a₁ a₂ b₁ b₂ : List Char}
    (h₁ : ':' ∉ a₁) (h₂ : ':' ∉ a₂)
    (h : a₁ ++ ':' :: b₁ = a₂ ++ ':' :: b₂) : a₁ = a₂ ∧ b₁ = b₂ := by
  induction a₁ generalizing a₂ with
  | nil =>
    cases a₂ with
    | nil => simpa using h
    | cons y u =>
      rw [List.nil_append, List.cons_append] at h
      injection h with hy _
      exact absurd (hy ▸ List.mem_cons_self y u) h₂
  | cons x t ih =>
    cases a₂ with
    | nil =>
      rw [List.nil_append, List.cons_append] at h
      injection h with hy _
      exact absurd (hy ▸ List.mem_cons_self x t) h₁
    | cons y u =>
      rw [List.cons_append, List.cons_append] at h
      injection h with hxy hrest
      subst hxy
      obtain ⟨ht, hb⟩ := ih (fun hm => h₁ (List.mem_cons_of_mem _ hm))
        (fun hm => h₂ (List.mem_cons_of_mem _ hm)) hrest
      exact ⟨by rw [ht], hb⟩

theorem colon_not_mem_natChars (n : Nat) : ':' ∉ natChars n := fun hmem =>
  absurd (natChars_mem_digits n ':' hmem) (by decide)

/-- On profiles whose server and database names contain no `:`, equal
connection keys force equal databases. -/
theorem getConnectionKey_database_inj {c₁ c₂ : ConnectionConfig}
    (hf₁ : colonFree c₁) (hf₂ : colonFree c₂)
    (hk : getConnectionKey c₁ = getConnectionKey c₂) :
    c₁.database = c₂.database := by
  have hk' : c₁.server ++ ':' :: (natChars (portOrDefault c₁.port)
        ++ ':' :: (c₁.database ++ ':' :: usernameOrIntegrated c₁.username))
      = c₂.server ++ ':' :: (natChars (portOrDefault c₂.port)
        ++ ':' :: (c₂.database ++ ':' :: usernameOrIntegrated c₂.username)) := by
    have e₁ := hk
    unfold getConnectionKey at e₁
    simpa [List.append_assoc] using e₁
  obtain ⟨_, hrest⟩ := colon_split hf₁.1 hf₂.1 hk'
  obtain ⟨_, hrest₂⟩ := colon_split (colon_not_mem_natChars _)
    (colon_not_mem_natChars _) hrest
  exact (colon_split hf₁.2 hf₂.2 hrest₂).1

/-- Equal pooling identity tuples give equal connection keys. -/
theorem key_of_identity {c₁ c₂ : ConnectionConfig}
    (h : poolIdentity c₁ = poolIdentity c₂) :
    getConnectionKey c₁ = getConnectionKey c₂ := by
  obtain ⟨h1, h2, h3, h4⟩ :
      c₁.server = c₂.server ∧ portOrDefault c₁.port = portOrDefault c₂.port
        ∧ c₁.database = c₂.database
        ∧ usernameOrIntegrated c₁.username = usernameOrIntegrated c₂.username := by
    have := h
    unfold poolIdentity at this
    simpa [Prod.ext_iff] using this
  unfold getConnectionKey
  rw [h1, h2, h3, h4]

theorem getConnection_ok_connected {config connectOk s p s'}
    (h : getConnection config connectOk s = (Except.ok p, s')) :
    p.connected = true := by
  rcases getConnection_ok_cases h with ⟨_, _, hc⟩ | ⟨hp, _, _⟩
  · exact hc
  · rw [hp]

theorem getConnection_ok_registered {config connectOk s p s'}
    (h : getConnection config connectOk s = (Except.ok p, s')) :
    lookupPool s'.pools (getConnectionKey config) = some p := by
  rcases getConnection_ok_cases h with ⟨hs, hl, _⟩ | ⟨_, hpools, _⟩
  · rw [hs]; exact hl
  · rw [hpools, lookupPool, if_pos rfl]

/-- C7 (amended): two sequential successful `getConnection` calls with
the same pooling identity tuple return the same `Pool` (the first call
leaves a connected pool registered under the shared key, which the
second call reuses without touching the state); and two successful calls
whose profiles differ in `database` return different pools *provided*
the server and database names contain no `:` — the key is a `:`-join of
the raw fields, so a `:` inside a field can make the keys of two
profiles with different databases collide. -/
theorem getConnection_identity_semantics :
    (∀ c₁ c₂ ok₁ ok₂ s s₁ p₁,
        poolIdentity c₁ = poolIdentity c₂ →
        getConnection c₁ ok₁ s = (Except.ok p₁, s₁) →
        p₁.connected = true
          ∧ getConnection c₂ ok₂ s₁ = (Except.ok p₁, s₁))
    ∧ (∀ c₁ c₂ ok₁ ok₂ s s₁ s₂ p₁ p₂,
        wfState s → colonFree c₁ → colonFree c₂ →
        c₁.database ≠ c₂.database →
        getConnection c₁ ok₁ s = (Except.ok p₁, s₁) →
        getConnection c₂ ok₂ s₁ = (Except.ok p₂, s₂) →
        p₁ ≠ p₂) := by
  constructor
  · intro c₁ c₂ ok₁ ok₂ s s₁ p₁ hid h₁
    have hk := key_of_identity hid
    have hconn := getConnection_ok_connected h₁
    have hlook : lookupPool s₁.pools (getConnectionKey c₂) = some p₁ := by
      rw [← hk]
      exact getConnection_ok_registered h₁
    refine ⟨hconn, ?_⟩
    unfold getConnection
    rw [hlook]
    simp [hconn]
  · intro c₁ c₂ ok₁ ok₂ s s₁ s₂ p₁ p₂ hwf hf₁ hf₂ hdb h₁ h₂
    have hkne : getConnectionKey c₁ ≠ getConnectionKey c₂ := fun hk =>
      hdb (getConnectionKey_database_inj hf₁ hf₂ hk)
    rcases getConnection_ok_cases h₁ with ⟨hs1, hl1, _⟩ | ⟨hp1, hpools1, hnext1⟩
    · subst hs1
      rcases getConnection_ok_cases h₂ with ⟨_, hl2, _⟩ | ⟨hp2, _, _⟩
      · intro hpe
        exact hkne (hwf.2 _ (lookupPool_mem hl1) _ (lookupPool_mem hl2)
          (by rw [hpe]))
      · intro hpe
        have hlt := hwf.1 _ (lookupPool_mem hl1)
        rw [hpe, hp2] at hlt
        simp at hlt
    · rcases getConnection_ok_cases h₂ with ⟨_, hl2, _⟩ | ⟨hp2, _, hnext2⟩
      · rw [hpools1] at hl2
        rw [lookupPool, if_neg hkne] at hl2
        intro hpe
        have hlt := hwf.1 _ (lookupPool_mem hl2)
        rw [← hpe, hp1] at hlt
        simp at hlt
      · intro hpe
        rw [hp1, hp2, hnext1] at hpe
        injection hpe with hid _
        omega

theorem wfState_empty : wfState emptyManager := by
  constructor
  · intro e he
    simp [emptyManager] at he
  · intro e₁ he₁ e₂ he₂ _
    simp [emptyManager] at he₁

/-- Witness for the C7 theorem: from the empty registry, a call for the
race-scenario profile followed by a call for the same identity returns
the same pool; and two calls for `:`-free profiles differing in the
database return different pools. -/
theorem getConnection_identity_semantics_witness :
    ((⟨0, true⟩ : Pool).connected = true
      ∧ getConnection cfgRace false
          ⟨[(getConnectionKey cfgRace, ⟨0, true⟩)], 1⟩
        = (Except.ok ⟨0, true⟩, ⟨[(getConnectionKey cfgRace, ⟨0, true⟩)], 1⟩))
    ∧ (⟨0, true⟩ : Pool) ≠ ⟨1, true⟩ :=
  ⟨getConnection_identity_semantics.1 cfgRace cfgRace true false emptyManager
      ⟨[(getConnectionKey cfgRace, ⟨0, true⟩)], 1⟩ ⟨0, true⟩ rfl (by decide),
    getConnection_identity_semantics.2 cfgRace
      ⟨"db1".data, none, "Ops".data, "sql".data, some "ro".data, some "pw".data⟩
      true true emptyManager
      ⟨[(getConnectionKey cfgRace, ⟨0, true⟩)], 1⟩
      ⟨[(getConnectionKey ⟨"db1".data, none, "Ops".data, "sql".data,
          some "ro".data, some "pw".data⟩, ⟨1, true⟩),
        (getConnectionKey cfgRace, ⟨0, true⟩)], 2⟩
      ⟨0, true⟩ ⟨1, true⟩ wfState_empty (by constructor <;> decide)
      (by constructor <;> decide) (by decide) (by decide) (by decide)⟩

/-- C7 counterexample: the profiles `cfgColl1` and `cfgColl2` differ in
their `database` fields, yet their `:`-joined connection keys coincide
(`s:1433:x:u:v`), so the second `getConnection` call returns the very
pool created by the first — two calls whose profiles differ in the
database share a Pool. -/
theorem getConnection_database_collision :
    cfgColl1.database ≠ cfgColl2.database
    ∧ getConnectionKey cfgColl1 = getConnectionKey cfgColl2
    ∧ getConnection cfgColl1 true emptyManager
        = (Except.ok ⟨0, true⟩,
            ⟨[(getConnectionKey cfgColl1, ⟨0, true⟩)], 1⟩)
    ∧ getConnection cfgColl2 true
        ⟨[(getConnectionKey cfgColl1, ⟨0, true⟩)], 1⟩
        = (Except.ok ⟨0, true⟩,
            ⟨[(getConnectionKey cfgColl1, ⟨0, true⟩)], 1⟩) := by
  exact ⟨by decide, by decide, by decide, by decide⟩

/-- C9 (code bug): `await pool.connect()` suspends between the registry
check and the registry update, so two concurrent `getConnection` calls
for the specification's scenario profile can interleave as
check/check/finish/finish: two network connections are established and
two distinct pools are created for one identity (the second registration
shadowing the first), while the serialized interleaving
check/finish/check/finish establishes exactly one connection and shares
one pool. -/
theorem concurrent_getConnection_race :
    (runSched cfgRace [false, true, false, true] initTwoTasks).connects = 2
    ∧ (runSched cfgRace [false, true, false, true] initTwoTasks).task0
        = TaskPhase.done ⟨0, true⟩
    ∧ (runSched cfgRace [false, true, false, true] initTwoTasks).task1
        = TaskPhase.done ⟨1, true⟩
    ∧ (Pool.mk 0 true) ≠ (Pool.mk 1 true)
    ∧ (runSched cfgRace [false, false, true, true] initTwoTasks).connects = 1
    ∧ (runSched cfgRace [false, false, true, true] initTwoTasks).task0
        = TaskPhase.done ⟨0, true⟩
    ∧ (runSched cfgRace [false, false, true, true] initTwoTasks).task1
        = TaskPhase.done ⟨0, true⟩ := by
  refine ⟨by decide, by decide, by decide, by decide, by decide, by decide,
    by decide⟩

/-! ### Claims C4 and C8: the schema assembler -/

/-- C4 counterexample: on catalog results carrying a dangling
primary-key reference, `describeTable` returns a `TableDescription`
whose `primary_keys` contains a name absent from its columns — the
subset invariant is violated and no `MetadataInconsistency` error is
surfaced (in this embedding `describeTable` is total and cannot report
one). -/
theorem describeTable_dangling_reference :
    "ghost".data
        ∈ (describeTable ghostCatalog "db".data "dbo".data "T".data).primary_keys
    ∧ "ghost".data
        ∉ ((describeTable ghostCatalog "db".data "dbo".data "T".data).columns.map
            ColumnInfo.name) := by
  exact ⟨by decide, by decide⟩

/-- C4 amended: `describeTable` merges the six sub-query results without
any cross-sub-query validation, so the invariants hold exactly when the
catalog rows satisfy them: if every primary-key row name and every name
in an index row's split key/included column lists appears among the
column-row names, then the returned description satisfies
`primary_keys ⊆ column names` and `index key/included names ⊆ column
names`; a dangling reference in the merged results is returned
unchanged, never surfaced as an error. -/
theorem describeTable_invariants_conditional :
    ∀ (cat : Catalog) (db s t : List Char),
      (∀ nm ∈ cat.primaryKeyRows db s t,
          nm ∈ (cat.columnRows db s t).map ColumnInfo.name) →
      (∀ r ∈ cat.indexRows db s t, ∀ nm,
          (nm ∈ splitCommaJoined r.columns
            ∨ nm ∈ splitCommaJoined r.included_columns) →
          nm ∈ (cat.columnRows db s t).map ColumnInfo.name) →
      (∀ nm ∈ (describeTable cat db s t).primary_keys,
          nm ∈ (describeTable cat db s t).columns.map ColumnInfo.name)
        ∧ (∀ ix ∈ (describeTable cat db s t).indexes, ∀ nm,
            (nm ∈ ix.columns ∨ nm ∈ ix.included_columns) →
            nm ∈ (describeTable cat db s t).columns.map ColumnInfo.name) := by
  intro cat db s t hpk hix
  constructor
  · intro nm hnm
    exact hpk nm hnm
  · intro ix hmem nm hnm
    simp only [describeTable, List.mem_map] at hmem
    obtain ⟨r, hr, rfl⟩ := hmem
    exact hix r hr nm (by simpa [mkIndexInfo] using hnm)

/-- Witness for the C4 theorem: on the consistent catalog with primary
key `{id}`, the description's primary-key name `id` is among its column
names. -/
theorem describeTable_invariants_conditional_witness :
    "id".data
      ∈ (describeTable idCatalog "db".data "dbo".data "T".data).columns.map
          ColumnInfo.name :=
  (describeTable_invariants_conditional idCatalog "db".data "dbo".data "T".data
      (by decide) (by intro r hr; simp [idCatalog] at hr)).1
    "id".data (by decide)

/-- C8 counterexample: on a catalog with no rows for `dbo.Missing`,
`describeTable` returns a present `TableDescription` with an empty
columns list — not a `NotFound` error (in this embedding the function is
total and has no error outcome at all). -/
theorem describeTable_missing_table_present :
    describeTable emptyCatalog "db".data "dbo".data "Missing".data
      = ⟨"dbo".data, "Missing".data, [], [], [], [], [], []⟩ := by
  decide

/-- C8 amended: when the columns sub-query returns zero rows,
`describeTable` does not report `NotFound`: it returns a
`TableDescription` carrying the requested schema and table names and an
empty columns list, so a caller cannot distinguish a nonexistent table
from one without catalog rows by error kind. -/
theorem describeTable_empty_columns (cat : Catalog) (db s t : List Char)
    (h : cat.columnRows db s t = []) :
    (describeTable cat db s t).columns = []
    ∧ (describeTable cat db s t).schema = s
    ∧ (describeTable cat db s t).table = t := by
  refine ⟨?_, rfl, rfl⟩
  simp [describeTable, h]

/-- Witness for the C8 theorem at the empty catalog. -/
theorem describeTable_empty_columns_witness :
    (describeTable emptyCatalog "db".data "dbo".data "Missing".data).columns = []
    ∧ (describeTable emptyCatalog "db".data "dbo".data "Missing".data).schema
        = "dbo".data
    ∧ (describeTable emptyCatalog "db".data "dbo".data "Missing".data).table
        = "Missing".data :=
  describeTable_empty_columns emptyCatalog "db".data "dbo".data "Missing".data
    rfl

end MSSqlMcp
